import Mathlib

/-!
# Verification of the Huntington–Hill apportionment program

Shallow embedding of `src/main.py`.

The source computes, for each state, the priority `P / sqrt(e * (e + 1))`
where `e = E + 1` (`priority`), and repeatedly gives one elector to the
state of maximal priority, scanning states in index order and replacing
the current maximum only on a strictly greater value, starting from the
sentinel index `-1` and the priority `0` (`calculate_electors`).  A Python
index of `-1` addresses the last element of the list.

All priorities are non-negative reals, so the order on priorities equals
the order on their squares `P^2 / (e * (e + 1))`, which are rational.  The
embedding therefore carries each priority as the exact fraction
`(P^2, e * (e + 1))`, numerator and denominator as natural numbers, and
compares fractions by cross-multiplication; `priority_lt_iff_prioLt`
proves that this order agrees with the order of the real-valued
`priority` function of the source.  The real-valued function itself is
`priority`, and failure (the Python `assert` and out-of-range list
indexing) is `Except`.
-/

/-- A squared priority, as an exact fraction: numerator and denominator. -/
abbrev Prio := ℕ × ℕ

/-- Strict order on squared priorities, by cross-multiplication. -/
def prioLt (x y : Prio) : Prop := x.1 * y.2 < y.1 * x.2

/-- Weak order on squared priorities, by cross-multiplication. -/
def prioLe (x y : Prio) : Prop := x.1 * y.2 ≤ y.1 * x.2

instance (x y : Prio) : Decidable (prioLt x y) :=
  inferInstanceAs (Decidable (x.1 * y.2 < y.1 * x.2))

instance (x y : Prio) : Decidable (prioLe x y) :=
  inferInstanceAs (Decidable (x.1 * y.2 ≤ y.1 * x.2))

/-- The square of the priority of a state with population `p` and `e`
current electors, from `priority` in the source: with `e' = e + 1` the
priority is `p / sqrt (e' * (e' + 1))`, so its square is the fraction
`p * p / ((e + 1) * (e + 2))`. -/
def prioritySq (p e : ℕ) : Prio := (p * p, (e + 1) * (e + 2))

/-- Line 31 of the source: the list of (squared) priorities of all states. -/
def priorities (pops electors : List ℕ) : List Prio :=
  List.zipWith prioritySq pops electors

/-- Lines 32–37 of the source: scan the priorities in index order, starting
from accumulator `acc` (sentinel index `-1`, priority `0`), replacing the
current maximum only on a strictly greater priority.  `i` is the index of
the first list element. -/
def scanMax : List Prio → ℕ → ℤ × Prio → ℤ × Prio
  | [], _, acc => acc
  | p :: ps, i, acc =>
    scanMax ps (i + 1) (if prioLt acc.2 p then ((i : ℤ), p) else acc)

/-- `electors[j] += 1` for a natural index `j` (out of range: unchanged;
the caller checks the range). -/
def incAt : List ℕ → ℕ → List ℕ
  | [], _ => []
  | x :: xs, 0 => (x + 1) :: xs
  | x :: xs, j + 1 => x :: incAt xs j

/-- The failure modes of `calculate_electors`: the `assert` on line 27
(`InvalidConfiguration` in the specification) and an out-of-range list
index on line 38. -/
inductive ApportionError where
  | invalidConfiguration : ApportionError
  | indexError : ApportionError
deriving DecidableEq

instance {ε α : Type} [DecidableEq ε] [DecidableEq α] : DecidableEq (Except ε α) := fun x y =>
  match x, y with
  | .ok a, .ok b =>
    if h : a = b then .isTrue (by rw [h]) else .isFalse (by intro hc; cases hc; exact h rfl)
  | .error a, .error b =>
    if h : a = b then .isTrue (by rw [h]) else .isFalse (by intro hc; cases hc; exact h rfl)
  | .ok _, .error _ => .isFalse (by intro h; cases h)
  | .error _, .ok _ => .isFalse (by intro h; cases h)

/-- One iteration of the loop on lines 30–38 of the source: compute the
priorities, scan for the maximum, and increment `electors[max_prio_i]`,
where the Python index `max_prio_i` may be the sentinel `-1`, which
addresses element `length - 1`; on an empty list it is an error. -/
def allocStep (pops electors : List ℕ) : Except ApportionError (List ℕ) :=
  let r := scanMax (priorities pops electors) 0 (-1, (0, 1))
  let j : ℤ := if r.1 < 0 then (electors.length : ℤ) + r.1 else r.1
  if 0 ≤ j ∧ j < (electors.length : ℤ) then
    .ok (incAt electors j.toNat)
  else
    .error .indexError

/-- The loop on lines 30–38 of the source, run for a given number of
iterations. -/
def allocate (pops : List ℕ) : ℕ → List ℕ → Except ApportionError (List ℕ)
  | 0, electors => .ok electors
  | k + 1, electors =>
    match allocStep pops electors with
    | .ok e => allocate pops k e
    | .error err => .error err

/-- `calculate_electors` from lines 25–39 of the source: check the assert
`num_electors >= n * base_state_electors`, start every state at
`base_state_electors`, and run the loop `num_electors -
base_state_electors * n` times. -/
def calculate_electors (populations : List ℕ) (num_electors : ℕ)
    (base_state_electors : ℕ) : Except ApportionError (List ℕ) :=
  let n := populations.length
  if num_electors < n * base_state_electors then
    .error .invalidConfiguration
  else
    allocate populations (num_electors - base_state_electors * n)
      (List.replicate n base_state_electors)

/-- `priority` from lines 21–23 of the source, over the exact reals. -/
noncomputable def priority (population : ℕ) (current_electors : ℕ) : ℝ :=
  let e : ℕ := current_electors + 1
  (population : ℝ) / Real.sqrt ((e : ℝ) * ((e : ℝ) + 1))

/-! ## The order on squared priorities -/

/-- The rational value of a squared priority. -/
def toRat (x : Prio) : ℚ := (x.1 : ℚ) / (x.2 : ℚ)

theorem prioLt_iff {x y : Prio} (hx : 0 < x.2) (hy : 0 < y.2) :
    prioLt x y ↔ toRat x < toRat y := by
  unfold prioLt toRat
  rw [div_lt_div_iff₀ (by exact_mod_cast hx) (by exact_mod_cast hy)]
  exact_mod_cast Iff.rfl

theorem prioLe_iff {x y : Prio} (hx : 0 < x.2) (hy : 0 < y.2) :
    prioLe x y ↔ toRat x ≤ toRat y := by
  unfold prioLe toRat
  rw [div_le_div_iff₀ (by exact_mod_cast hx) (by exact_mod_cast hy)]
  exact_mod_cast Iff.rfl

theorem prioLe_of_not_lt {x y : Prio} (h : ¬ prioLt x y) : prioLe y x :=
  Nat.le_of_not_lt h

theorem prioLe_of_lt {x y : Prio} (h : prioLt x y) : prioLe x y :=
  Nat.le_of_lt h

theorem prioritySq_den_pos (p e : ℕ) : 0 < (prioritySq p e).2 := by
  simp only [prioritySq]
  positivity

theorem prioLt_zero_iff (p e : ℕ) : prioLt (0, 1) (prioritySq p e) ↔ 0 < p := by
  simp only [prioLt, prioritySq, Nat.zero_mul, Nat.mul_one]
  constructor
  · intro h
    rcases Nat.eq_zero_or_pos p with h0 | h0
    · simp [h0] at h
    · exact h0
  · intro h
    exact Nat.mul_pos h h

theorem prioritySq_le_mono_pop {p p' : ℕ} (e : ℕ) (h : p ≤ p') :
    prioLe (prioritySq p e) (prioritySq p' e) := by
  simp only [prioLe, prioritySq]
  exact Nat.mul_le_mul_right _ (Nat.mul_le_mul h h)

theorem prioLt_trans {x y z : Prio} (hx : 0 < x.2) (hy : 0 < y.2) (hz : 0 < z.2)
    (h1 : prioLt x y) (h2 : prioLt y z) : prioLt x z := by
  rw [prioLt_iff hx hy] at h1
  rw [prioLt_iff hy hz] at h2
  rw [prioLt_iff hx hz]
  exact lt_trans h1 h2

theorem prioLt_of_le_of_lt {x y z : Prio} (hx : 0 < x.2) (hy : 0 < y.2) (hz : 0 < z.2)
    (h1 : prioLe x y) (h2 : prioLt y z) : prioLt x z := by
  rw [prioLe_iff hx hy] at h1
  rw [prioLt_iff hy hz] at h2
  rw [prioLt_iff hx hz]
  exact lt_of_le_of_lt h1 h2

theorem prioLe_refl (x : Prio) : prioLe x x := Nat.le_refl _

theorem getD_mem_of_lt {l : List Prio} {k : ℕ} (h : k < l.length) : l.getD k (0, 1) ∈ l := by
  rw [List.getD_eq_getElem _ _ h]
  exact List.getElem_mem h

/-! ## The scan of lines 32–37 -/

/-- If no priority strictly exceeds the accumulated maximum, the scan
leaves the accumulator unchanged. -/
theorem scanMax_eq_self :
    ∀ (ps : List Prio) (i : ℕ) (acc : ℤ × Prio),
      (∀ p ∈ ps, ¬ prioLt acc.2 p) → scanMax ps i acc = acc := by
  intro ps
  induction ps with
  | nil => intro i acc _; rfl
  | cons p rest ih =>
    intro i acc h
    have hp : ¬ prioLt acc.2 p := h p (List.mem_cons_self _ _)
    simp only [scanMax, if_neg hp]
    exact ih (i + 1) acc fun q hq => h q (List.mem_cons_of_mem _ hq)

/-- The scanned index is either the initial one or in range. -/
theorem scanMax_fst_bound :
    ∀ (ps : List Prio) (i : ℕ) (acc : ℤ × Prio),
      (scanMax ps i acc).1 = acc.1 ∨
        ((i : ℤ) ≤ (scanMax ps i acc).1 ∧ (scanMax ps i acc).1 < (i : ℤ) + ps.length) := by
  intro ps
  induction ps with
  | nil => intro i acc; left; rfl
  | cons p rest ih =>
    intro i acc
    by_cases hp : prioLt acc.2 p
    · simp only [scanMax, if_pos hp]
      rcases ih (i + 1) ((i : ℤ), p) with h | ⟨h1, h2⟩
      · right
        rw [h]
        constructor
        · exact le_refl _
        · simp only [List.length_cons]
          push_cast
          omega
      · right
        constructor
        · push_cast at h1 ⊢
          omega
        · simp only [List.length_cons] at h2 ⊢
          push_cast at h2 ⊢
          omega
    · simp only [scanMax, if_neg hp]
      rcases ih (i + 1) acc with h | ⟨h1, h2⟩
      · left; exact h
      · right
        constructor
        · push_cast at h1 ⊢
          omega
        · simp only [List.length_cons] at h2 ⊢
          push_cast at h2 ⊢
          omega

/-- The full characterization of the scan when some priority strictly
exceeds the starting maximum `m`: the result is the priority at the
lowest index attaining the maximum of the list, every entry is at most
the result, and every entry before the winning index is strictly below
it — the tie-break of the source. -/
theorem scanMax_spec :
    ∀ (ps : List Prio) (i : ℕ) (j : ℤ) (m : Prio),
      (∀ p ∈ ps, 0 < p.2) → 0 < m.2 → (∃ p ∈ ps, prioLt m p) →
      ∃ k : ℕ, k < ps.length ∧
        (scanMax ps i (j, m)).1 = (i : ℤ) + k ∧
        (scanMax ps i (j, m)).2 = ps.getD k (0, 1) ∧
        prioLt m (scanMax ps i (j, m)).2 ∧
        (∀ l, l < ps.length → prioLe (ps.getD l (0, 1)) (scanMax ps i (j, m)).2) ∧
        (∀ l, l < k → prioLt (ps.getD l (0, 1)) (scanMax ps i (j, m)).2) := by
  intro ps
  induction ps with
  | nil =>
    intro i j m _ _ hex
    simp at hex
  | cons p rest ih =>
    intro i j m hden hm hex
    have hppos : 0 < p.2 := hden p (List.mem_cons_self _ _)
    have hdrest : ∀ q ∈ rest, 0 < q.2 := fun q hq => hden q (List.mem_cons_of_mem _ hq)
    by_cases hup : prioLt m p
    · have hstep : scanMax (p :: rest) i (j, m) = scanMax rest (i + 1) ((i : ℤ), p) := by
        simp [scanMax, hup]
      by_cases hex2 : ∃ q ∈ rest, prioLt p q
      · obtain ⟨k', hk', h1, h2, h3, h4, h5⟩ := ih (i + 1) (i : ℤ) p hdrest hppos hex2
        have hr2pos : 0 < (scanMax rest (i + 1) ((i : ℤ), p)).2.2 := by
          rw [h2]
          exact hdrest _ (getD_mem_of_lt hk')
        refine ⟨k' + 1, by simpa using Nat.succ_lt_succ hk', ?_, ?_, ?_, ?_, ?_⟩
        · rw [hstep, h1]
          push_cast
          ring
        · rw [hstep, h2]
          simp [List.getD_cons_succ]
        · rw [hstep]
          exact prioLt_trans hm hppos hr2pos hup h3
        · rw [hstep]
          intro l hl
          match l with
          | 0 => exact prioLe_of_lt h3
          | l' + 1 =>
            simp only [List.getD_cons_succ]
            exact h4 l' (by simpa using Nat.lt_of_succ_lt_succ hl)
        · rw [hstep]
          intro l hl
          match l with
          | 0 => exact h3
          | l' + 1 =>
            simp only [List.getD_cons_succ]
            exact h5 l' (Nat.lt_of_succ_lt_succ hl)
      · push_neg at hex2
        have hfix : scanMax rest (i + 1) ((i : ℤ), p) = ((i : ℤ), p) :=
          scanMax_eq_self rest (i + 1) ((i : ℤ), p) hex2
        refine ⟨0, Nat.succ_pos _, ?_, ?_, ?_, ?_, ?_⟩
        · rw [hstep, hfix]
          simp
        · rw [hstep, hfix]
          rfl
        · rw [hstep, hfix]
          exact hup
        · rw [hstep, hfix]
          intro l hl
          match l with
          | 0 => exact prioLe_refl p
          | l' + 1 =>
            simp only [List.getD_cons_succ]
            have hlt : l' < rest.length := by simpa using Nat.lt_of_succ_lt_succ hl
            exact prioLe_of_not_lt (hex2 _ (getD_mem_of_lt hlt))
        · intro l hl
          exact absurd hl (Nat.not_lt_zero l)
    · have hstep : scanMax (p :: rest) i (j, m) = scanMax rest (i + 1) (j, m) := by
        simp [scanMax, hup]
      have hex2 : ∃ q ∈ rest, prioLt m q := by
        obtain ⟨q, hq, hmq⟩ := hex
        rcases List.mem_cons.mp hq with rfl | hq'
        · exact absurd hmq hup
        · exact ⟨q, hq', hmq⟩
      obtain ⟨k', hk', h1, h2, h3, h4, h5⟩ := ih (i + 1) j m hdrest hm hex2
      have hr2pos : 0 < (scanMax rest (i + 1) (j, m)).2.2 := by
        rw [h2]
        exact hdrest _ (getD_mem_of_lt hk')
      have hple : prioLe p m := prioLe_of_not_lt hup
      have hpr : prioLt p (scanMax rest (i + 1) (j, m)).2 :=
        prioLt_of_le_of_lt hppos hm hr2pos hple h3
      refine ⟨k' + 1, by simpa using Nat.succ_lt_succ hk', ?_, ?_, ?_, ?_, ?_⟩
      · rw [hstep, h1]
        push_cast
        ring
      · rw [hstep, h2]
        simp [List.getD_cons_succ]
      · rw [hstep]
        exact h3
      · rw [hstep]
        intro l hl
        match l with
        | 0 => exact prioLe_of_lt hpr
        | l' + 1 =>
          simp only [List.getD_cons_succ]
          exact h4 l' (by simpa using Nat.lt_of_succ_lt_succ hl)
      · rw [hstep]
        intro l hl
        match l with
        | 0 => exact hpr
        | l' + 1 =>
          simp only [List.getD_cons_succ]
          exact h5 l' (Nat.lt_of_succ_lt_succ hl)

/-! ## The list of priorities -/

theorem priorities_length (pops electors : List ℕ) :
    (priorities pops electors).length = min pops.length electors.length := by
  simp [priorities]

theorem priorities_getD {pops electors : List ℕ} {k : ℕ}
    (hk : k < (priorities pops electors).length) :
    (priorities pops electors).getD k (0, 1) =
      prioritySq (pops.getD k 0) (electors.getD k 0) := by
  have hk' := hk
  rw [priorities_length] at hk'
  have h1 : k < pops.length := lt_of_lt_of_le hk' (min_le_left _ _)
  have h2 : k < electors.length := lt_of_lt_of_le hk' (min_le_right _ _)
  rw [List.getD_eq_getElem _ _ hk, List.getD_eq_getElem _ _ h1, List.getD_eq_getElem _ _ h2]
  simp [priorities]

theorem priorities_den_pos (pops electors : List ℕ) :
    ∀ x ∈ priorities pops electors, 0 < x.2 := by
  intro x hx
  simp only [priorities] at hx
  obtain ⟨i, hi, rfl⟩ := List.mem_iff_getElem.mp hx
  rw [List.getElem_zipWith]
  exact prioritySq_den_pos _ _

/-! ## Incrementing one entry -/

theorem incAt_length : ∀ (l : List ℕ) (k : ℕ), (incAt l k).length = l.length := by
  intro l
  induction l with
  | nil => intro k; rfl
  | cons x xs ih =>
    intro k
    match k with
    | 0 => rfl
    | k + 1 => simp [incAt, ih k]

theorem incAt_getD_self : ∀ (l : List ℕ) (k : ℕ), k < l.length →
    (incAt l k).getD k 0 = l.getD k 0 + 1 := by
  intro l
  induction l with
  | nil => intro k hk; simp at hk
  | cons x xs ih =>
    intro k hk
    match k with
    | 0 => rfl
    | k + 1 =>
      simp only [incAt, List.getD_cons_succ]
      exact ih k (by simpa using Nat.lt_of_succ_lt_succ hk)

theorem incAt_getD_ne : ∀ (l : List ℕ) (k j : ℕ), j ≠ k →
    (incAt l k).getD j 0 = l.getD j 0 := by
  intro l
  induction l with
  | nil => intro k j _; rfl
  | cons x xs ih =>
    intro k j hjk
    match k, j with
    | 0, 0 => exact absurd rfl hjk
    | 0, j + 1 => rfl
    | k + 1, 0 => rfl
    | k + 1, j + 1 =>
      simp only [incAt, List.getD_cons_succ]
      exact ih k j (fun h => hjk (by rw [h]))

theorem incAt_sum : ∀ (l : List ℕ) (k : ℕ), k < l.length →
    (incAt l k).sum = l.sum + 1 := by
  intro l
  induction l with
  | nil => intro k hk; simp at hk
  | cons x xs ih =>
    intro k hk
    match k with
    | 0 => simp [incAt]; omega
    | k + 1 =>
      simp only [incAt, List.sum_cons, ih k (by simpa using Nat.lt_of_succ_lt_succ hk)]
      omega

theorem incAt_getD_ge : ∀ (l : List ℕ) (k j : ℕ), l.getD j 0 ≤ (incAt l k).getD j 0 := by
  intro l k j
  by_cases h : j = k
  · subst h
    by_cases hj : j < l.length
    · rw [incAt_getD_self l j hj]
      omega
    · have h1 : l.getD j 0 = 0 := List.getD_eq_default _ _ (le_of_not_lt hj)
      rw [h1]
      exact Nat.zero_le _
  · rw [incAt_getD_ne l k j h]

theorem incAt_getD_le : ∀ (l : List ℕ) (k j : ℕ), (incAt l k).getD j 0 ≤ l.getD j 0 + 1 := by
  intro l k j
  by_cases h : j = k
  · subst h
    by_cases hj : j < l.length
    · rw [incAt_getD_self l j hj]
    · have h1 : (incAt l j).getD j 0 = 0 := by
        apply List.getD_eq_default
        rw [incAt_length]
        exact le_of_not_lt hj
      omega
  · rw [incAt_getD_ne l k j h]
    omega

theorem incAt_append_singleton : ∀ (l : List ℕ) (x : ℕ),
    incAt (l ++ [x]) l.length = l ++ [x + 1] := by
  intro l
  induction l with
  | nil => intro x; rfl
  | cons y ys ih =>
    intro x
    simp only [List.cons_append, List.length_cons, incAt]
    rw [show ys.append [x] = ys ++ [x] from rfl, ih x]

/-! ## The winner of one iteration -/

/-- The index whose entry the iteration increments: the scanned index if
it is non-negative, otherwise (the sentinel `-1`) the last index, as Python
`electors[-1]` addresses the last element. -/
def winner (pops electors : List ℕ) : ℕ :=
  let r := scanMax (priorities pops electors) 0 (-1, (0, 1))
  if r.1 < 0 then electors.length - 1 else r.1.toNat

/-- With all populations zero no priority is ever strictly greater than
the starting maximum `0`, so the scan returns the sentinel accumulator and
the winner is the last index. -/
theorem priorities_not_lt_zero :
    ∀ (pops electors : List ℕ), (∀ p ∈ pops, p = 0) →
      ∀ x ∈ priorities pops electors, ¬ prioLt (0, 1) x := by
  intro pops
  induction pops with
  | nil => intro electors _ x hx; simp [priorities] at hx
  | cons p ps ih =>
    intro electors hz x hx
    match electors with
    | [] => simp [priorities] at hx
    | e :: es =>
      simp only [priorities, List.zipWith_cons_cons, List.mem_cons] at hx
      rcases hx with rfl | hx
      · rw [prioLt_zero_iff]
        have h0 : p = 0 := hz p (List.mem_cons_self _ _)
        omega
      · exact ih es (fun q hq => hz q (List.mem_cons_of_mem _ hq)) x hx

theorem winner_all_zero (pops electors : List ℕ) (hz : ∀ p ∈ pops, p = 0) :
    scanMax (priorities pops electors) 0 (-1, (0, 1)) = (-1, (0, 1)) ∧
      winner pops electors = electors.length - 1 := by
  have hs := scanMax_eq_self (priorities pops electors) 0 (-1, (0, 1))
    (priorities_not_lt_zero pops electors hz)
  refine ⟨hs, ?_⟩
  simp only [winner]
  rw [hs]
  norm_num

/-- With some population positive, the winner is in range, has positive
population, its priority is maximal, and every earlier index has a
strictly smaller priority. -/
theorem winner_spec_pos (pops electors : List ℕ) (hlen : pops.length = electors.length)
    (hex : ∃ k, k < pops.length ∧ 0 < pops.getD k 0) :
    winner pops electors < electors.length ∧
    0 < pops.getD (winner pops electors) 0 ∧
    (∀ l, l < electors.length →
      prioLe (prioritySq (pops.getD l 0) (electors.getD l 0))
        (prioritySq (pops.getD (winner pops electors) 0)
          (electors.getD (winner pops electors) 0))) ∧
    (∀ l, l < winner pops electors →
      prioLt (prioritySq (pops.getD l 0) (electors.getD l 0))
        (prioritySq (pops.getD (winner pops electors) 0)
          (electors.getD (winner pops electors) 0))) := by
  have hplen : (priorities pops electors).length = electors.length := by
    rw [priorities_length, hlen, Nat.min_self]
  obtain ⟨k, hk, hkpos⟩ := hex
  have hkp : k < (priorities pops electors).length := by omega
  have hexp : ∃ p ∈ priorities pops electors, prioLt (0, 1) p := by
    refine ⟨(priorities pops electors).getD k (0, 1), getD_mem_of_lt hkp, ?_⟩
    rw [priorities_getD hkp, prioLt_zero_iff]
    exact hkpos
  obtain ⟨k₀, hk₀, h1, h2, h3, h4, h5⟩ :=
    scanMax_spec (priorities pops electors) 0 (-1) (0, 1)
      (priorities_den_pos pops electors) Nat.one_pos hexp
  have hfst : (scanMax (priorities pops electors) 0 (-1, (0, 1))).1 = (k₀ : ℤ) := by
    rw [h1]; push_cast; ring
  have hwin : winner pops electors = k₀ := by
    simp only [winner]
    rw [hfst]
    simp
  have hk₀e : k₀ < electors.length := by omega
  have hval : (scanMax (priorities pops electors) 0 (-1, (0, 1))).2 =
      prioritySq (pops.getD k₀ 0) (electors.getD k₀ 0) := by
    rw [h2, priorities_getD hk₀]
  refine ⟨by rw [hwin]; exact hk₀e, ?_, ?_, ?_⟩
  · rw [hwin]
    rw [hval, prioLt_zero_iff] at h3
    exact h3
  · intro l hl
    rw [hwin]
    have hlp : l < (priorities pops electors).length := by omega
    have := h4 l (by omega)
    rw [priorities_getD hlp, hval] at this
    exact this
  · intro l hl
    rw [hwin] at hl ⊢
    have hlp : l < (priorities pops electors).length := by omega
    have := h5 l hl
    rw [priorities_getD hlp, hval] at this
    exact this

/-- The winner is always in range when the list is non-empty. -/
theorem winner_lt_length (pops electors : List ℕ) (hlen : pops.length = electors.length)
    (hn : 1 ≤ electors.length) : winner pops electors < electors.length := by
  have hplen : (priorities pops electors).length = electors.length := by
    rw [priorities_length, hlen, Nat.min_self]
  simp only [winner]
  rcases scanMax_fst_bound (priorities pops electors) 0 (-1, (0, 1)) with h | ⟨h1, h2⟩
  · have h' : (scanMax (priorities pops electors) 0 (-1, (0, 1))).1 = -1 := h
    rw [h']
    norm_num
    omega
  · rw [hplen] at h2
    have hnn : ¬ (scanMax (priorities pops electors) 0 (-1, (0, 1))).1 < 0 := by
      push_cast at h1
      omega
    rw [if_neg hnn]
    push_cast at h1 h2
    omega

/-- One loop iteration on a non-empty list always increments the winner's
entry. -/
theorem allocStep_eq {pops electors : List ℕ} (hlen : pops.length = electors.length)
    (hn : 1 ≤ electors.length) :
    allocStep pops electors = .ok (incAt electors (winner pops electors)) := by
  have hplen : (priorities pops electors).length = electors.length := by
    rw [priorities_length, hlen, Nat.min_self]
  simp only [allocStep, winner]
  rcases scanMax_fst_bound (priorities pops electors) 0 (-1, (0, 1)) with h | ⟨h1, h2⟩
  · have h' : (scanMax (priorities pops electors) 0 (-1, (0, 1))).1 = -1 := h
    rw [h']
    norm_num
    rw [if_pos hn]
    have htn : ((electors.length : ℤ) + -1).toNat = electors.length - 1 := by omega
    rw [htn]
  · have hnn : ¬ (scanMax (priorities pops electors) 0 (-1, (0, 1))).1 < 0 := by
      push_cast at h1
      omega
    rw [if_neg hnn, if_neg hnn]
    rw [hplen] at h2
    have hguard : (0 : ℤ) ≤ (scanMax (priorities pops electors) 0 (-1, (0, 1))).1 ∧
        (scanMax (priorities pops electors) 0 (-1, (0, 1))).1 < (electors.length : ℤ) := by
      push_cast at h1 h2
      omega
    rw [if_pos hguard]

/-! ## The loop as a pure iteration -/

/-- The allocation loop as a pure state iteration: each step increments
the winner's entry. -/
def run (pops : List ℕ) : ℕ → List ℕ → List ℕ
  | 0, s => s
  | k + 1, s => run pops k (incAt s (winner pops s))

theorem run_length (pops : List ℕ) : ∀ (k : ℕ) (s : List ℕ), (run pops k s).length = s.length := by
  intro k
  induction k with
  | zero => intro s; rfl
  | succ k ih =>
    intro s
    rw [run, ih, incAt_length]

theorem run_succ_right (pops : List ℕ) :
    ∀ (k : ℕ) (s : List ℕ),
      run pops (k + 1) s = incAt (run pops k s) (winner pops (run pops k s)) := by
  intro k
  induction k with
  | zero => intro s; rfl
  | succ k ih =>
    intro s
    rw [show run pops (k + 1 + 1) s = run pops (k + 1) (incAt s (winner pops s)) from rfl,
      ih (incAt s (winner pops s))]
    rfl

theorem run_add (pops : List ℕ) :
    ∀ (a b : ℕ) (s : List ℕ), run pops (a + b) s = run pops b (run pops a s) := by
  intro a
  induction a with
  | zero => intro b s; rw [Nat.zero_add]; rfl
  | succ a ih =>
    intro b s
    rw [show a + 1 + b = (a + b) + 1 from by omega]
    rw [show run pops (a + b + 1) s = run pops (a + b) (incAt s (winner pops s)) from rfl]
    rw [ih b (incAt s (winner pops s))]
    rfl

/-- On a non-empty list the loop never fails: `allocate` is the pure
iteration `run`. -/
theorem allocate_eq_run (pops : List ℕ) :
    ∀ (k : ℕ) (s : List ℕ), pops.length = s.length → 1 ≤ s.length →
      allocate pops k s = .ok (run pops k s) := by
  intro k
  induction k with
  | zero => intro s _ _; rfl
  | succ k ih =>
    intro s hlen hn
    rw [show allocate pops (k + 1) s =
        (match allocStep pops s with
         | .ok e => allocate pops k e
         | .error err => .error err) from rfl]
    rw [allocStep_eq hlen hn]
    exact ih (incAt s (winner pops s)) (by rw [incAt_length]; exact hlen)
      (by rw [incAt_length]; exact hn)

/-- Each iteration adds exactly one seat: the sum after `k` iterations. -/
theorem run_sum (pops : List ℕ) :
    ∀ (k : ℕ) (s : List ℕ), pops.length = s.length → 1 ≤ s.length →
      (run pops k s).sum = s.sum + k := by
  intro k
  induction k with
  | zero => intro s _ _; rfl
  | succ k ih =>
    intro s hlen hn
    rw [run, ih (incAt s (winner pops s)) (by rw [incAt_length]; exact hlen)
      (by rw [incAt_length]; exact hn)]
    rw [incAt_sum s _ (winner_lt_length pops s hlen hn)]
    omega

/-- Seat counts never decrease over the run. -/
theorem run_getD_ge (pops : List ℕ) :
    ∀ (k : ℕ) (s : List ℕ) (j : ℕ), s.getD j 0 ≤ (run pops k s).getD j 0 := by
  intro k
  induction k with
  | zero => intro s j; exact le_refl _
  | succ k ih =>
    intro s j
    rw [run]
    exact le_trans (incAt_getD_ge s _ j) (ih _ j)

/-- Each entry gains at most one seat per iteration. -/
theorem run_getD_le_add (pops : List ℕ) :
    ∀ (k : ℕ) (s : List ℕ) (j : ℕ), (run pops k s).getD j 0 ≤ s.getD j 0 + k := by
  intro k
  induction k with
  | zero => intro s j; show s.getD j 0 ≤ s.getD j 0 + 0; omega
  | succ k ih =>
    intro s j
    rw [run]
    calc (run pops k (incAt s (winner pops s))).getD j 0
        ≤ (incAt s (winner pops s)).getD j 0 + k := ih _ j
      _ ≤ s.getD j 0 + 1 + k := by have := incAt_getD_le s (winner pops s) j; omega
      _ = s.getD j 0 + (k + 1) := by omega

/-! ## `calculate_electors` -/

/-- Within the precondition and with at least one state,
`calculate_electors` runs the pure iteration from the base allocation. -/
theorem calculate_eq_run {pops : List ℕ} {ne be : ℕ}
    (hpre : pops.length * be ≤ ne) (hn : 1 ≤ pops.length) :
    calculate_electors pops ne be =
      .ok (run pops (ne - be * pops.length) (List.replicate pops.length be)) := by
  simp only [calculate_electors]
  rw [if_neg (by omega)]
  exact allocate_eq_run pops _ _ (by simp) (by simp; omega)

theorem allocStep_ok_or_index (pops s : List ℕ) :
    (∃ l, allocStep pops s = .ok l) ∨ allocStep pops s = .error .indexError := by
  simp only [allocStep]
  split
  · split
    · exact Or.inl ⟨_, rfl⟩
    · exact Or.inr rfl
  · split
    · exact Or.inl ⟨_, rfl⟩
    · exact Or.inr rfl

/-- The loop itself never raises the configuration error: that comes only
from the assert before the loop. -/
theorem allocate_ne_invalid (pops : List ℕ) :
    ∀ (k : ℕ) (s : List ℕ), allocate pops k s ≠ .error .invalidConfiguration := by
  intro k
  induction k with
  | zero => intro s h; exact absurd h (by simp [allocate])
  | succ k ih =>
    intro s
    simp only [allocate]
    rcases allocStep_ok_or_index pops s with ⟨l, hl⟩ | hl
    · rw [hl]; exact ih l
    · rw [hl]; simp

theorem sum_replicate_nat (n x : ℕ) : (List.replicate n x).sum = n * x := by
  induction n with
  | zero => simp
  | succ n ih => rw [List.replicate_succ, List.sum_cons, ih]; ring

theorem getD_replicate_of_lt {n x j : ℕ} (h : j < n) :
    (List.replicate n x).getD j 0 = x := by
  rw [List.getD_eq_getElem _ _ (by simpa using h)]
  exact List.getElem_replicate ..

/-! ## Claims C1, C2, C5, C8 -/

/-- C1: for `n ≥ 1` states, non-negative populations with at least one
positive, and `total_seats ≥ base_seats * n`, `calculate_electors`
returns a list whose sum is exactly `total_seats`. -/
theorem claim_C1_conservation (pops : List ℕ) (ne be : ℕ)
    (hn : 1 ≤ pops.length) (hpos : ∃ p ∈ pops, 0 < p) (hpre : be * pops.length ≤ ne) :
    ∃ seats, calculate_electors pops ne be = .ok seats ∧ seats.sum = ne := by
  have hpre' : pops.length * be ≤ ne := by rw [Nat.mul_comm]; exact hpre
  refine ⟨_, calculate_eq_run hpre' hn, ?_⟩
  rw [run_sum pops _ _ (by simp) (by simp; omega)]
  rw [sum_replicate_nat]
  have hc : pops.length * be = be * pops.length := Nat.mul_comm _ _
  omega

theorem claim_C1_conservation_witness :
    ∃ seats, calculate_electors [1, 2] 5 1 = .ok seats ∧ seats.sum = 5 :=
  claim_C1_conservation [1, 2] 5 1 (by decide) (by decide) (by decide)

/-- C2: for `n ≥ 1` states and `total_seats ≥ base_seats * n`, every entry
of the result of `calculate_electors` is at least `base_seats`. -/
theorem claim_C2_floor (pops : List ℕ) (ne be : ℕ)
    (hn : 1 ≤ pops.length) (hpre : be * pops.length ≤ ne) :
    ∃ seats, calculate_electors pops ne be = .ok seats ∧ ∀ s ∈ seats, be ≤ s := by
  have hpre' : pops.length * be ≤ ne := by rw [Nat.mul_comm]; exact hpre
  refine ⟨_, calculate_eq_run hpre' hn, ?_⟩
  intro s hs
  obtain ⟨j, hj, rfl⟩ := List.mem_iff_getElem.mp hs
  rw [← List.getD_eq_getElem _ 0 hj]
  have hjn : j < pops.length := by
    have := hj
    rw [run_length, List.length_replicate] at this
    exact this
  calc be = (List.replicate pops.length be).getD j 0 := (getD_replicate_of_lt hjn).symm
    _ ≤ _ := run_getD_ge pops _ _ j

theorem claim_C2_floor_witness :
    ∃ seats, calculate_electors [1, 2] 5 1 = .ok seats ∧ ∀ s ∈ seats, 1 ≤ s :=
  claim_C2_floor [1, 2] 5 1 (by decide) (by decide)

/-- C5: the concrete scenario of the source: populations `[1, 10, 100, 500]`
with `100` electors and `0` base electors yields `[0, 1, 16, 83]`. -/
theorem claim_C5_concrete_scenario :
    calculate_electors [1, 10, 100, 500] 100 0 = .ok [0, 1, 16, 83] := by decide

/-- C8: after `k` completed iterations of the loop started from the base
allocation, the sum of seats is `base_seats * n + k`; at termination,
with `total_seats ≥ base_seats * n`, the sum is exactly `total_seats`. -/
theorem claim_C8_sum_invariant :
    (∀ (pops : List ℕ) (be k : ℕ) (s : List ℕ), 1 ≤ pops.length →
      allocate pops k (List.replicate pops.length be) = .ok s →
      s.sum = be * pops.length + k) ∧
    (∀ (pops : List ℕ) (ne be : ℕ) (s : List ℕ), 1 ≤ pops.length →
      be * pops.length ≤ ne → calculate_electors pops ne be = .ok s → s.sum = ne) := by
  constructor
  · intro pops be k s hn hok
    rw [allocate_eq_run pops k _ (by simp) (by simp; omega)] at hok
    cases hok
    rw [run_sum pops _ _ (by simp) (by simp; omega), sum_replicate_nat]
    ring
  · intro pops ne be s hn hpre hok
    have hpre' : pops.length * be ≤ ne := by rw [Nat.mul_comm]; exact hpre
    rw [calculate_eq_run hpre' hn] at hok
    cases hok
    rw [run_sum pops _ _ (by simp) (by simp; omega), sum_replicate_nat]
    have hc : pops.length * be = be * pops.length := Nat.mul_comm _ _
    omega

theorem claim_C8_sum_invariant_witness :
    List.sum [1, 3] = 1 * 2 + 2 :=
  claim_C8_sum_invariant.1 [2, 3] 1 2 [1, 3] (by decide) (by decide)

/-! ## Claim C3: the priority function -/

/-- The real-valued priority as a single square root. -/
theorem priority_eq_sqrt (p e : ℕ) :
    priority p e = Real.sqrt ((p : ℝ) ^ 2 / (((e : ℝ) + 1) * ((e : ℝ) + 2))) := by
  rw [Real.sqrt_div (by positivity) _, Real.sqrt_sq (by positivity)]
  simp only [priority]
  push_cast
  ring_nf

/-- C3: the priority function computes exactly
`P / sqrt((E + 1) * (E + 2))`, and is `0` on a zero population. -/
theorem claim_C3_priority_formula (p e : ℕ) :
    priority p e = (p : ℝ) / Real.sqrt (((e : ℝ) + 1) * ((e : ℝ) + 2)) ∧
    priority 0 e = 0 := by
  constructor
  · simp only [priority]
    push_cast
    ring_nf
  · simp [priority]

/-- The order of the real-valued priorities is exactly the
cross-multiplication order of the embedded squared priorities: the
embedding decides comparisons faithfully. -/
theorem priority_lt_iff_prioLt (p e q f : ℕ) :
    priority p e < priority q f ↔ prioLt (prioritySq p e) (prioritySq q f) := by
  rw [priority_eq_sqrt, priority_eq_sqrt]
  rw [Real.sqrt_lt_sqrt_iff (by positivity)]
  rw [div_lt_div_iff₀ (by positivity) (by positivity)]
  simp only [prioLt, prioritySq]
  rw [pow_two, pow_two]
  exact_mod_cast Iff.rfl

/-! ## Claim C4: the tie-break -/

/-- C4: when some population is positive, the awarded entity's priority is
maximal and every entity at a lower index has a strictly smaller priority:
among entities tied for the maximum the lowest index wins, because the
scan replaces the current maximum only on a strictly greater priority. -/
theorem claim_C4_tie_break (pops electors : List ℕ)
    (hlen : pops.length = electors.length)
    (hex : ∃ k, k < pops.length ∧ 0 < pops.getD k 0) :
    allocStep pops electors = .ok (incAt electors (winner pops electors)) ∧
    winner pops electors < electors.length ∧
    (∀ l, l < electors.length →
      prioLe (prioritySq (pops.getD l 0) (electors.getD l 0))
        (prioritySq (pops.getD (winner pops electors) 0)
          (electors.getD (winner pops electors) 0))) ∧
    (∀ l, l < winner pops electors →
      prioLt (prioritySq (pops.getD l 0) (electors.getD l 0))
        (prioritySq (pops.getD (winner pops electors) 0)
          (electors.getD (winner pops electors) 0))) := by
  have hn : 1 ≤ electors.length := by
    obtain ⟨k, hk, _⟩ := hex
    omega
  obtain ⟨h1, _, h3, h4⟩ := winner_spec_pos pops electors hlen hex
  exact ⟨allocStep_eq hlen hn, h1, h3, h4⟩

theorem claim_C4_tie_break_witness :
    (allocStep [2, 2] [0, 0] = .ok (incAt [0, 0] (winner [2, 2] [0, 0]))) ∧
      winner [2, 2] [0, 0] = 0 :=
  ⟨(claim_C4_tie_break [2, 2] [0, 0] (by decide) ⟨0, by decide, by decide⟩).1, by decide⟩

/-! ## Claim C6: the failure modes -/

/-- C6 counterexample: the claim states failure with `InvalidConfiguration`
if and only if `total_seats < base_seats * n` or `n = 0`; at `pops = []`,
`total_seats = 0`, `base_seats = 3` the right side holds (`n = 0`) but the
code succeeds with `[]`, so the equivalence is false. -/
theorem claim_C6_counterexample :
    ¬ (calculate_electors [] 0 3 = .error .invalidConfiguration ↔
        (0 < 3 * ([] : List ℕ).length ∨ ([] : List ℕ).length = 0)) := by decide

/-- C6 amended: `calculate_electors` fails with `InvalidConfiguration`
exactly when `total_seats < base_seats * n`; with `n ≥ 1` inside the
precondition it succeeds; with `n = 0` it never raises
`InvalidConfiguration`: it returns the empty allocation when
`total_seats = 0` and fails with an index error otherwise. -/
theorem claim_C6_error_iff_amended (pops : List ℕ) (ne be : ℕ) :
    (calculate_electors pops ne be = .error .invalidConfiguration ↔
      ne < pops.length * be) ∧
    (1 ≤ pops.length → pops.length * be ≤ ne →
      ∃ seats, calculate_electors pops ne be = .ok seats) ∧
    (pops = [] → 0 < ne → calculate_electors pops ne be = .error .indexError) ∧
    (pops = [] → ne = 0 → calculate_electors pops ne be = .ok []) := by
  refine ⟨⟨?_, ?_⟩, ?_, ?_, ?_⟩
  · intro h
    by_contra hlt
    push_neg at hlt
    simp only [calculate_electors] at h
    rw [if_neg (by omega)] at h
    exact allocate_ne_invalid pops _ _ h
  · intro h
    simp only [calculate_electors]
    rw [if_pos h]
  · intro hn hpre
    exact ⟨_, calculate_eq_run hpre hn⟩
  · intro hnil hne
    subst hnil
    obtain ⟨m, rfl⟩ : ∃ m, ne = m + 1 := ⟨ne - 1, by omega⟩
    simp only [calculate_electors, List.length_nil, Nat.mul_zero, Nat.zero_mul, Nat.sub_zero,
      List.replicate_zero]
    rw [if_neg (by omega)]
    simp only [allocate]
    rw [show allocStep [] [] = Except.error ApportionError.indexError from by decide]
  · intro hnil hne
    subst hnil
    subst hne
    simp [calculate_electors, allocate]

theorem claim_C6_error_iff_amended_witness :
    ∃ seats, calculate_electors [1] 5 1 = .ok seats :=
  (claim_C6_error_iff_amended [1] 5 1).2.1 (by decide) (by decide)

/-! ## Claim C7: the sentinel when all priorities are zero -/

/-- C7: if every priority is zero (all populations zero), the scan never
selects any entity — the accumulator keeps the sentinel index `-1` and
priority `0` — and the increment applies to the element the sentinel
addresses, namely the last one. -/
theorem claim_C7_sentinel (pops electors : List ℕ) (hz : ∀ p ∈ pops, p = 0) :
    scanMax (priorities pops electors) 0 (-1, (0, 1)) = (-1, (0, 1)) ∧
    (pops.length = electors.length → 1 ≤ electors.length →
      allocStep pops electors = .ok (incAt electors (electors.length - 1))) := by
  refine ⟨(winner_all_zero pops electors hz).1, ?_⟩
  intro hlen hn
  rw [allocStep_eq hlen hn, (winner_all_zero pops electors hz).2]

theorem claim_C7_sentinel_witness :
    allocStep [0, 0] [3, 3] = .ok [3, 4] := by
  rw [(claim_C7_sentinel [0, 0] [3, 3] (by decide)).2 (by decide) (by decide)]
  decide

/-! ## Claim C10: all populations zero -/

/-- With all populations zero, every iteration increments the last entry:
the sentinel index `-1` addresses the last element. -/
theorem run_all_zero (pops : List ℕ) (hz : ∀ p ∈ pops, p = 0) :
    ∀ (k : ℕ) (l : List ℕ) (x : ℕ), pops.length = l.length + 1 →
      run pops k (l ++ [x]) = l ++ [x + k] := by
  intro k
  induction k with
  | zero => intro l x _; simp [run]
  | succ k ih =>
    intro l x hlen
    have hw : winner pops (l ++ [x]) = l.length := by
      have h2 := (winner_all_zero pops (l ++ [x]) hz).2
      rw [List.length_append] at h2
      simpa using h2
    rw [run, hw, incAt_append_singleton, ih l (x + 1) hlen]
    have hx : x + 1 + k = x + (k + 1) := by omega
    rw [hx]

/-- C10: with `n ≥ 1` entities of population `0` and
`total_seats > base_seats * n`, every contested seat goes to the last
entity: the result is `base_seats` everywhere except the last entry,
which is `base_seats + (total_seats - base_seats * n)`. -/
theorem claim_C10_all_zero_last (n be ne : ℕ) (hn : 1 ≤ n) (hlt : be * n < ne) :
    calculate_electors (List.replicate n 0) ne be =
      .ok (List.replicate (n - 1) be ++ [be + (ne - be * n)]) := by
  obtain ⟨m, rfl⟩ : ∃ m, n = m + 1 := ⟨n - 1, by omega⟩
  have hzl : ∀ p ∈ List.replicate (m + 1) (0 : ℕ), p = 0 :=
    fun p hp => List.eq_of_mem_replicate hp
  have hmul : (m + 1) * be = be * (m + 1) := Nat.mul_comm _ _
  have hpre : (List.replicate (m + 1) (0 : ℕ)).length * be ≤ ne := by
    simp only [List.length_replicate]
    omega
  rw [calculate_eq_run hpre (by simp)]
  simp only [List.length_replicate]
  rw [List.replicate_succ' m be]
  rw [run_all_zero _ hzl _ (List.replicate m be) be (by simp)]
  norm_num

theorem claim_C10_all_zero_last_witness :
    calculate_electors (List.replicate 2 0) 5 1 =
      .ok (List.replicate 1 1 ++ [1 + (5 - 1 * 2)]) :=
  claim_C10_all_zero_last 2 1 5 (by decide) (by decide)

/-! ## Claim C9: monotonicity in population

The two runs — one on `pops`, one on `pops'` which is `pops` with entity
`i`'s population raised — are related by a delayed simulation: after `t`
primed iterations there is a `t' ≤ t` such that the primed state agrees
with the original state after `t'` iterations away from `i`, while entity
`i` holds `t - t'` extra seats. -/

theorem prioLt_sq_iff {a b c d : ℕ} :
    prioLt (prioritySq a b) (prioritySq c d) ↔
      toRat (prioritySq a b) < toRat (prioritySq c d) :=
  prioLt_iff (prioritySq_den_pos _ _) (prioritySq_den_pos _ _)

theorem prioLe_sq_iff {a b c d : ℕ} :
    prioLe (prioritySq a b) (prioritySq c d) ↔
      toRat (prioritySq a b) ≤ toRat (prioritySq c d) :=
  prioLe_iff (prioritySq_den_pos _ _) (prioritySq_den_pos _ _)

theorem all_zero_of_getD {l : List ℕ} (h : ∀ k, k < l.length → l.getD k 0 = 0) :
    ∀ p ∈ l, p = 0 := by
  intro p hp
  obtain ⟨k, hk, rfl⟩ := List.mem_iff_getElem.mp hp
  rw [← List.getD_eq_getElem _ 0 hk]
  exact h k hk

theorem getD_zero_of_all_zero {l : List ℕ} (h : ∀ p ∈ l, p = 0) (k : ℕ) :
    l.getD k 0 = 0 := by
  by_cases hk : k < l.length
  · rw [List.getD_eq_getElem _ _ hk]
    exact h _ (List.getElem_mem _)
  · exact List.getD_eq_default _ _ (le_of_not_lt hk)

/-- If the two runs stand in the same state and the original would award
entity `i`, then the primed run — where only `i`'s population is larger —
also awards `i`. -/
theorem winner_mono_same_state
    {pops pops' s s' : List ℕ} {i : ℕ}
    (hlp : pops'.length = pops.length)
    (hls : pops.length = s.length)
    (hls' : s'.length = s.length)
    (hp : ∀ j, j ≠ i → pops'.getD j 0 = pops.getD j 0)
    (hpi : pops.getD i 0 ≤ pops'.getD i 0)
    (hsall : ∀ j, s'.getD j 0 = s.getD j 0)
    (hw : winner pops s = i) :
    winner pops' s' = i := by
  by_cases hex : ∃ k, k < pops.length ∧ 0 < pops.getD k 0
  · obtain ⟨hwlt, hwpos, hmax, hstrict⟩ := winner_spec_pos pops s hls hex
    rw [hw] at hwlt hwpos hmax hstrict
    have hex' : ∃ k, k < pops'.length ∧ 0 < pops'.getD k 0 :=
      ⟨i, by omega, lt_of_lt_of_le hwpos hpi⟩
    have hlen' : pops'.length = s'.length := by omega
    obtain ⟨hwlt', hwpos', hmax', hstrict'⟩ := winner_spec_pos pops' s' hlen' hex'
    rcases lt_trichotomy (winner pops' s') i with hlt | heq | hgt
    · exfalso
      have h1 := hmax' i (by omega)
      simp only [hsall] at h1
      rw [hp _ (by omega : winner pops' s' ≠ i)] at h1
      have h2 := hstrict (winner pops' s') hlt
      have h3 := prioritySq_le_mono_pop (s.getD i 0) hpi
      rw [prioLe_sq_iff] at h1 h3
      rw [prioLt_sq_iff] at h2
      linarith
    · exact heq
    · exfalso
      have h1 := hstrict' i hgt
      simp only [hsall] at h1
      rw [hp _ (by omega : winner pops' s' ≠ i)] at h1
      have h2 := hmax (winner pops' s') (by omega)
      have h3 := prioritySq_le_mono_pop (s.getD i 0) hpi
      rw [prioLt_sq_iff] at h1
      rw [prioLe_sq_iff] at h2 h3
      linarith
  · push_neg at hex
    have hz : ∀ p ∈ pops, p = 0 := all_zero_of_getD (fun k hk => by have := hex k hk; omega)
    have hwz := (winner_all_zero pops s hz).2
    by_cases hex' : ∃ k, k < pops'.length ∧ 0 < pops'.getD k 0
    · obtain ⟨hwlt', hwpos', hmax', hstrict'⟩ :=
        winner_spec_pos pops' s' (by omega) hex'
      by_contra hne
      rw [hp _ hne] at hwpos'
      have h0 : pops.getD (winner pops' s') 0 = 0 := getD_zero_of_all_zero hz _
      omega
    · push_neg at hex'
      have hz' : ∀ p ∈ pops', p = 0 := all_zero_of_getD (fun k hk => by have := hex' k hk; omega)
      have hwz' := (winner_all_zero pops' s' hz').2
      rw [hwz', hls']
      omega

/-- If the two runs stand in states that agree away from `i` and neither
would award entity `i`, they award the same entity. -/
theorem winner_match
    {pops pops' s s' : List ℕ} {i : ℕ}
    (hlp : pops'.length = pops.length)
    (hls : pops.length = s.length)
    (hls' : s'.length = s.length)
    (hp : ∀ j, j ≠ i → pops'.getD j 0 = pops.getD j 0)
    (hpi : pops.getD i 0 ≤ pops'.getD i 0)
    (hs : ∀ j, j ≠ i → s'.getD j 0 = s.getD j 0)
    (hw : winner pops s ≠ i)
    (hw' : winner pops' s' ≠ i) :
    winner pops s = winner pops' s' := by
  by_cases hex : ∃ k, k < pops.length ∧ 0 < pops.getD k 0
  · obtain ⟨hwlt, hwpos, hmax, hstrict⟩ := winner_spec_pos pops s hls hex
    have hex' : ∃ k, k < pops'.length ∧ 0 < pops'.getD k 0 := by
      obtain ⟨k, hk, hkpos⟩ := hex
      by_cases hki : k = i
      · exact ⟨i, by omega, by subst hki; omega⟩
      · exact ⟨k, by omega, by rw [hp k hki]; exact hkpos⟩
    obtain ⟨hwlt', hwpos', hmax', hstrict'⟩ :=
      winner_spec_pos pops' s' (by omega) hex'
    rcases lt_trichotomy (winner pops s) (winner pops' s') with hlt | heq | hgt
    · exfalso
      have h1 := hstrict' (winner pops s) hlt
      rw [hp _ hw, hs _ hw, hp _ hw', hs _ hw'] at h1
      have h2 := hmax (winner pops' s') (by omega)
      rw [prioLt_sq_iff] at h1
      rw [prioLe_sq_iff] at h2
      linarith
    · exact heq
    · exfalso
      have h1 := hstrict (winner pops' s') hgt
      have h2 := hmax' (winner pops s) (by omega)
      rw [hp _ hw, hs _ hw, hp _ hw', hs _ hw'] at h2
      rw [prioLt_sq_iff] at h1
      rw [prioLe_sq_iff] at h2
      linarith
  · push_neg at hex
    have hz : ∀ p ∈ pops, p = 0 := all_zero_of_getD (fun k hk => by have := hex k hk; omega)
    have hwz := (winner_all_zero pops s hz).2
    by_cases hex' : ∃ k, k < pops'.length ∧ 0 < pops'.getD k 0
    · exfalso
      obtain ⟨hwlt', hwpos', _, _⟩ :=
        winner_spec_pos pops' s' (by omega) hex'
      rw [hp _ hw'] at hwpos'
      have h0 : pops.getD (winner pops' s') 0 = 0 := getD_zero_of_all_zero hz _
      omega
    · push_neg at hex'
      have hz' : ∀ p ∈ pops', p = 0 := all_zero_of_getD (fun k hk => by have := hex' k hk; omega)
      have hwz' := (winner_all_zero pops' s' hz').2
      rw [hwz, hwz', hls']

/-- Absorption: if the primed run will not award `i` but holds `d` extra
seats at `i`, the original run can take `m ≤ d` steps, all awarding `i`,
after which both runs award the same entity. -/
theorem absorb
    {pops pops' : List ℕ} {i : ℕ}
    (hlp : pops'.length = pops.length)
    (hp : ∀ j, j ≠ i → pops'.getD j 0 = pops.getD j 0)
    (hpi : pops.getD i 0 ≤ pops'.getD i 0)
    (hi : i < pops.length) :
    ∀ (d : ℕ) (s s' : List ℕ), s.length = pops.length → s'.length = pops.length →
      (∀ j, j ≠ i → s'.getD j 0 = s.getD j 0) →
      s'.getD i 0 = s.getD i 0 + d →
      winner pops' s' ≠ i →
      ∃ m, m ≤ d ∧
        (∀ j, j ≠ i → (run pops m s).getD j 0 = s.getD j 0) ∧
        (run pops m s).getD i 0 = s.getD i 0 + m ∧
        winner pops (run pops m s) = winner pops' s' := by
  intro d
  induction d with
  | zero =>
    intro s s' hl hl' hsj hsi hw'
    by_cases hw : winner pops s = i
    · exfalso
      refine hw' (winner_mono_same_state hlp (by omega) (by omega) hp hpi ?_ hw)
      intro j
      by_cases hj : j = i
      · subst hj; omega
      · exact hsj j hj
    · refine ⟨0, le_refl 0, fun j _ => rfl, rfl, ?_⟩
      show winner pops s = winner pops' s'
      exact winner_match hlp (by omega) (by omega) hp hpi hsj hw hw'
  | succ d ih =>
    intro s s' hl hl' hsj hsi hw'
    by_cases hw : winner pops s = i
    · obtain ⟨m, hm, hj, hii, hwin⟩ := ih (incAt s i) s'
        (by rw [incAt_length]; exact hl) hl'
        (fun j hj => by rw [hsj j hj, incAt_getD_ne s i j hj])
        (by rw [incAt_getD_self s i (by omega), hsi]; omega)
        hw'
      refine ⟨m + 1, by omega, ?_, ?_, ?_⟩
      · intro j hj'
        rw [show run pops (m + 1) s = run pops m (incAt s (winner pops s)) from rfl, hw]
        rw [hj j hj', incAt_getD_ne s i j hj']
      · rw [show run pops (m + 1) s = run pops m (incAt s (winner pops s)) from rfl, hw]
        rw [hii, incAt_getD_self s i (by omega)]
        omega
      · rw [show run pops (m + 1) s = run pops m (incAt s (winner pops s)) from rfl, hw]
        exact hwin
    · refine ⟨0, Nat.zero_le _, fun j _ => rfl, rfl, ?_⟩
      show winner pops s = winner pops' s'
      exact winner_match hlp (by omega) (by omega) hp hpi hsj hw hw'

/-- The delayed simulation between the primed and the original run, both
started from the base allocation. -/
theorem coupling
    (pops pops' : List ℕ) (i : ℕ) (be : ℕ)
    (hlp : pops'.length = pops.length)
    (hp : ∀ j, j ≠ i → pops'.getD j 0 = pops.getD j 0)
    (hpi : pops.getD i 0 ≤ pops'.getD i 0)
    (hi : i < pops.length) :
    ∀ t : ℕ, ∃ t', t' ≤ t ∧
      (∀ j, j ≠ i → (run pops' t (List.replicate pops.length be)).getD j 0
        = (run pops t' (List.replicate pops.length be)).getD j 0) ∧
      (run pops' t (List.replicate pops.length be)).getD i 0
        = (run pops t' (List.replicate pops.length be)).getD i 0 + (t - t') := by
  intro t
  induction t with
  | zero => exact ⟨0, le_refl 0, fun j _ => rfl, rfl⟩
  | succ t ih =>
    obtain ⟨t', ht', hjcomp, hicomp⟩ := ih
    have hSlen : (run pops' t (List.replicate pops.length be)).length = pops.length := by
      rw [run_length, List.length_replicate]
    have hwlt : winner pops' (run pops' t (List.replicate pops.length be)) < pops.length := by
      have h := winner_lt_length pops' (run pops' t (List.replicate pops.length be))
        (by rw [hSlen]; omega) (by rw [hSlen]; omega)
      omega
    by_cases hwi : winner pops' (run pops' t (List.replicate pops.length be)) = i
    · refine ⟨t', by omega, ?_, ?_⟩
      · intro j hj
        rw [run_succ_right pops' t _, hwi]
        rw [incAt_getD_ne _ i j hj]
        exact hjcomp j hj
      · rw [run_succ_right pops' t _, hwi]
        rw [incAt_getD_self _ i (by omega)]
        rw [hicomp]
        omega
    · obtain ⟨m, hm, hj2, hi2, hwin⟩ := absorb hlp hp hpi hi (t - t')
        (run pops t' (List.replicate pops.length be))
        (run pops' t (List.replicate pops.length be))
        (by rw [run_length, List.length_replicate])
        (by rw [run_length, List.length_replicate])
        hjcomp hicomp hwi
      have hadd : run pops (t' + m) (List.replicate pops.length be)
          = run pops m (run pops t' (List.replicate pops.length be)) :=
        run_add pops t' m _
      have hmlen : (run pops m (run pops t' (List.replicate pops.length be))).length
          = pops.length := by
        rw [run_length, run_length, List.length_replicate]
      refine ⟨t' + m + 1, by omega, ?_, ?_⟩
      · intro j hj
        rw [run_succ_right pops' t _, run_succ_right pops (t' + m) _, hadd, hwin]
        by_cases hjw : j = winner pops' (run pops' t (List.replicate pops.length be))
        · subst hjw
          rw [incAt_getD_self _ _ (by omega), incAt_getD_self _ _ (by omega)]
          rw [hj2 _ hj, hjcomp _ hj]
        · rw [incAt_getD_ne _ _ _ hjw, incAt_getD_ne _ _ _ hjw, hj2 _ hj, hjcomp _ hj]
      · rw [run_succ_right pops' t _, run_succ_right pops (t' + m) _, hadd, hwin]
        rw [incAt_getD_ne _ _ i (fun h => hwi h.symm),
          incAt_getD_ne _ _ i (fun h => hwi h.symm)]
        rw [hi2, hicomp]
        omega

/-- C9: holding all other populations and the parameters fixed, raising
one entity's population never decreases that entity's final seat count. -/
theorem claim_C9_population_monotonicity (pops : List ℕ) (i p' ne be : ℕ)
    (hi : i < pops.length) (hinc : pops.getD i 0 ≤ p') (hpre : be * pops.length ≤ ne) :
    ∀ seats seats', calculate_electors pops ne be = .ok seats →
      calculate_electors (pops.set i p') ne be = .ok seats' →
      seats.getD i 0 ≤ seats'.getD i 0 := by
  intro seats seats' hok hok'
  have hlp : (pops.set i p').length = pops.length := List.length_set pops i p'
  have hp : ∀ j, j ≠ i → (pops.set i p').getD j 0 = pops.getD j 0 := by
    intro j hj
    by_cases hjl : j < pops.length
    · rw [List.getD_eq_getElem _ _ (by omega), List.getD_eq_getElem _ _ hjl]
      exact List.getElem_set_ne (fun h => hj h.symm) (by omega)
    · rw [List.getD_eq_default _ _ (by omega), List.getD_eq_default _ _ (by omega)]
  have hpi : pops.getD i 0 ≤ (pops.set i p').getD i 0 := by
    have h1 : (pops.set i p').getD i 0 = p' := by
      rw [List.getD_eq_getElem _ _ (by omega)]
      simp
    rw [h1]
    exact hinc
  have hn : 1 ≤ pops.length := by omega
  have hmul : pops.length * be = be * pops.length := Nat.mul_comm _ _
  rw [calculate_eq_run (by omega) hn] at hok
  have hpre2 : (pops.set i p').length * be ≤ ne := by rw [hlp]; omega
  rw [calculate_eq_run hpre2 (by rw [hlp]; omega)] at hok'
  rw [hlp] at hok'
  cases hok
  cases hok'
  obtain ⟨t', ht', hjc, hic⟩ :=
    coupling pops (pops.set i p') i be hlp hp hpi hi (ne - be * pops.length)
  rw [hic]
  have hsplit : run pops (ne - be * pops.length) (List.replicate pops.length be)
      = run pops ((ne - be * pops.length) - t')
          (run pops t' (List.replicate pops.length be)) := by
    rw [← run_add]
    congr 1
    omega
  rw [hsplit]
  have hbound := run_getD_le_add pops ((ne - be * pops.length) - t')
    (run pops t' (List.replicate pops.length be)) i
  omega

theorem claim_C9_population_monotonicity_witness :
    List.getD [2, 2] 0 0 ≤ List.getD [3, 1] 0 0 :=
  claim_C9_population_monotonicity [2, 2] 0 5 4 1 (by decide) (by decide) (by decide)
    [2, 2] [3, 1] (by decide) (by decide)
